import Mathlib

/-!
Verification of the client-ID lookup service (`src/main.py`).

The service keeps a spreadsheet-derived mapping from client names to ids in
module-level state and answers name-resolution queries with an
exact-then-fuzzy strategy.  We model Python strings as `List Char` so that
all string operations (strip, replace, equality) are plain list functions,
and we embed:

* `load_data` — parses the fixed data file into a name→id dictionary plus
  the candidate-name list (`src/main.py` lines 15–31);
* `upload_file` — writes the uploaded sheet into the upload directory under
  the uploaded file's own name and reloads (`src/main.py` lines 36–44);
* `get_client_id` — the resolver endpoint (`src/main.py` lines 46–74).

The fuzzy scorer (`fuzzywuzzy.process.extractOne`) is external library
code; we parametrise over an abstract score function and model only the
selection logic (scan all candidates, keep the first best).
-/

/-- Python strings, modelled as lists of characters. -/
abbrev Str := List Char

/-- Coerce a Lean string literal to the `List Char` model. -/
def str (s : String) : Str := s.data

/-- The characters removed by Python's `str.strip()` (ASCII whitespace). -/
def pyIsSpace (c : Char) : Bool :=
  c = ' ' || c = '\t' || c = '\n' || c = '\r' || c = '\x0b' || c = '\x0c'

/-- Python `s.strip()`: drop whitespace from both ends. -/
def pyStrip (s : Str) : Str :=
  ((s.dropWhile pyIsSpace).reverse.dropWhile pyIsSpace).reverse

/-- Python `s.replace(c, "")`: remove every occurrence of the character. -/
def pyRemove (c : Char) (s : Str) : Str :=
  s.filter (fun a => a ≠ c)

/-- Name normalization, as in `x.strip().replace("\x7b", "").replace("\x7d", "")`
(`src/main.py` lines 26 and 51). -/
def normalizeName (s : Str) : Str :=
  pyRemove '}' (pyRemove '{' (pyStrip s))

/-- Id normalization, as in `x.strip()` (`src/main.py` line 27). -/
def normalizeId (s : Str) : Str :=
  pyStrip s

/-- One spreadsheet row: the cell of the `Id` column and the cell of the
`name` column, already converted to text (`astype(str)`). -/
structure Row where
  Id : Str
  name : Str
deriving DecidableEq, Repr

/-- A parseable spreadsheet: its column names and its rows, in file order. -/
structure Sheet where
  columns : List Str
  rows : List Row
deriving DecidableEq, Repr

/-- Association-list lookup with string keys (Python `dict` access /
`in` test). -/
def alookup {α : Type} (k : Str) : List (Str × α) → Option α
  | [] => none
  | p :: ps => if p.1 = k then some p.2 else alookup k ps

/-- Association-list update (Python `dict` assignment): replace the value at
an existing key in place, else append the new binding at the end.  This is
exactly the insertion-order semantics of a Python `dict`. -/
def aset {α : Type} (k : Str) (v : α) : List (Str × α) → List (Str × α)
  | [] => [(k, v)]
  | p :: ps => if p.1 = k then (k, v) :: ps else p :: aset k v ps

/-- `dict(zip(df["name"], df["Id"]))` (`src/main.py` line 29): fold the
normalized rows into a dictionary; a later row with the same normalized
name overwrites the value of an earlier one. -/
def buildDict (rows : List Row) : List (Str × Str) :=
  rows.foldl (fun d r => aset (normalizeName r.name) (normalizeId r.Id) d) []

/-- Result of `load_data` (`src/main.py` lines 15–31): either the file is
absent (`return None, None`), or the required columns are missing (the
`KeyError` whose message names the expected and the found column sets), or
the dictionary and the candidate-name list. -/
inductive LoadOutcome where
  | noData
  | formatError (expected found : List Str)
  | loaded (dict : List (Str × Str)) (names : List Str)
deriving DecidableEq, Repr

/-- `load_data` (`src/main.py` lines 15–31), over the parsed content of the
data file (`none` when the file does not exist).  Column names are stripped
(`df.columns.str.strip()`), the required columns `Id` and `name` are
checked case-sensitively, rows are normalized, the dictionary is built, and
the candidate list is `list(client_dict.keys())`. -/
def load_data (file : Option Sheet) : LoadOutcome :=
  match file with
  | none => .noData
  | some sheet =>
    let cols := sheet.columns.map pyStrip
    if str "Id" ∈ cols ∧ str "name" ∈ cols then
      let dict := buildDict sheet.rows
      .loaded dict (dict.map Prod.fst)
    else
      .formatError [str "Id", str "name"] cols

/-- The fixed data filename `meldepCustomers.xlsx` (`src/main.py` line 12);
`load_data` always reads this file. -/
def dataFileName : Str := str "meldepCustomers.xlsx"

/-- The server's state: the upload directory (filename → parsed sheet) and
the module-level pair `client_dict, client_names_list` (`none` models the
`None, None` state before any successful load). -/
structure ServerState where
  fs : List (Str × Sheet)
  data : Option (List (Str × Str) × List Str)
deriving DecidableEq, Repr

/-- `upload_file` (`src/main.py` lines 36–44): save the uploaded sheet under
the uploaded file's own filename inside the upload directory, then reload
the globals from `load_data` (which reads the fixed `dataFileName`).  The
boolean is `false` when `load_data` raises (missing columns), in which case
the assignment to the globals never happens. -/
def upload_file (st : ServerState) (fname : Str) (sheet : Sheet) :
    ServerState × Bool :=
  let fs' := aset fname sheet st.fs
  match load_data (alookup dataFileName fs') with
  | .noData => (⟨fs', none⟩, true)
  | .loaded d n => (⟨fs', some (d, n)⟩, true)
  | .formatError _ _ => (⟨fs', st.data⟩, false)

/-- Scan the candidate list keeping the best-scoring candidate; on ties the
first-encountered candidate wins (strict `>` to replace), matching
`fuzzywuzzy`'s `max`-based selection. -/
def extractBest (f : Str → Nat) : Str × Nat → List Str → Str × Nat
  | best, [] => best
  | best, c :: cs => extractBest f (if f c > best.2 then (c, f c) else best) cs

/-- `process.extractOne(query, candidates)` (`src/main.py` line 65), with
the library's scorer abstracted to `f`: `none` on an empty candidate list,
else the first candidate attaining the maximal score, with its score. -/
def extractOne (f : Str → Nat) : List Str → Option (Str × Nat)
  | [] => none
  | c :: cs => some (extractBest f (c, f c) cs)

/-- Observable outcome of one `GET /get_client_id` request
(`src/main.py` lines 46–74).  `noDataError` and `invalidQueryError` are the
two HTTP 400 responses, `notFound` the HTTP 404; `pyError` marks an
unhandled Python exception (unpacking `None` from `extractOne`, or a
`KeyError` on `client_dict[best_match]`), which the code never guards. -/
inductive ResolveResult where
  | noDataError
  | invalidQueryError
  | exact (id name : Str)
  | fuzzy (id name : Str) (score : Nat)
  | notFound
  | pyError
deriving DecidableEq, Repr

/-- `get_client_id` (`src/main.py` lines 46–74), parametrised by the
library's scorer.  Returns the response paired with the state after the
request (the handler assigns no global, so every branch returns `st`). -/
def get_client_id (score : Str → Str → Nat) (st : ServerState) (name : Str) :
    ResolveResult × ServerState :=
  match st.data with
  | none => (.noDataError, st)
  | some (dict, names) =>
    if dict.isEmpty then (.noDataError, st)
    else
      let nm := normalizeName name
      if nm = [] then (.invalidQueryError, st)
      else
        match alookup nm dict with
        | some id => (.exact id nm, st)
        | none =>
          match extractOne (score nm) names with
          | none => (.pyError, st)
          | some (best, s) =>
            if s ≥ 80 then
              match alookup best dict with
              | some id => (.fuzzy id best s, st)
              | none => (.pyError, st)
            else (.notFound, st)

/-- Reference function for the duplicate-overwrite property: the normalized
id of the last file row whose normalized name is `k`. -/
def lastIdFor (rows : List Row) (k : Str) : Option Str :=
  (rows.reverse.find? (fun r => normalizeName r.name == k)).map
    (fun r => normalizeId r.Id)

/-- Reference function: first-occurrence deduplication of a list, skipping
elements already in `seen` — the order of `list(dict.keys())` for a dict
built by insertion. -/
def dedupFirst (seen : List Str) : List Str → List Str
  | [] => []
  | x :: xs =>
    if x ∈ seen then dedupFirst seen xs else x :: dedupFirst (x :: seen) xs

/-! ### Association-list lemmas -/

theorem alookup_aset_self {α : Type} (k : Str) (v : α) (l : List (Str × α)) :
    alookup k (aset k v l) = some v := by
  induction l with
  | nil => simp [aset, alookup]
  | cons p ps ih =>
    by_cases h : p.1 = k
    · simp [aset, h, alookup]
    · simp [aset, h, alookup, ih]

theorem alookup_aset_ne {α : Type} {k k' : Str} (v : α) (l : List (Str × α))
    (h : k' ≠ k) : alookup k' (aset k v l) = alookup k' l := by
  induction l with
  | nil => simp [aset, alookup, Ne.symm h]
  | cons p ps ih =>
    by_cases hp : p.1 = k
    · subst hp
      simp [aset, alookup, Ne.symm h]
    · simp only [aset, if_neg hp, alookup]
      by_cases hpk : p.1 = k'
      · simp [hpk]
      · simp [hpk, ih]

theorem keys_aset {α : Type} (k : Str) (v : α) (l : List (Str × α)) :
    (aset k v l).map Prod.fst =
      if k ∈ l.map Prod.fst then l.map Prod.fst
      else l.map Prod.fst ++ [k] := by
  induction l with
  | nil => simp [aset]
  | cons p ps ih =>
    by_cases h : p.1 = k
    · subst h
      have ha : aset p.1 v (p :: ps) = (p.1, v) :: ps := by
        simp only [aset]
        rw [if_pos trivial]
      rw [ha]
      simp only [List.map_cons]
      rw [if_pos (List.mem_cons_self p.1 (List.map Prod.fst ps))]
    · simp only [aset, if_neg h, List.map_cons, List.mem_cons, ih]
      by_cases hk : k ∈ ps.map Prod.fst
      · simp [hk, Ne.symm h]
      · simp [hk, Ne.symm h]

theorem keys_aset_nodup {α : Type} (k : Str) (v : α) (l : List (Str × α))
    (h : (l.map Prod.fst).Nodup) : ((aset k v l).map Prod.fst).Nodup := by
  rw [keys_aset]
  by_cases hk : k ∈ l.map Prod.fst
  · simpa [hk] using h
  · rw [if_neg hk, List.nodup_append]
    refine ⟨h, List.nodup_singleton k, ?_⟩
    intro a ha hb
    rw [List.mem_singleton] at hb
    subst hb
    exact hk ha

theorem alookup_of_mem_keys {α : Type} {k : Str} {l : List (Str × α)}
    (h : k ∈ l.map Prod.fst) : ∃ v, alookup k l = some v := by
  induction l with
  | nil => simp at h
  | cons p ps ih =>
    by_cases hp : p.1 = k
    · exact ⟨p.2, by simp [alookup, hp]⟩
    · simp only [List.map_cons, List.mem_cons] at h
      rcases h with h | h
      · exact absurd h.symm hp
      · obtain ⟨v, hv⟩ := ih h
        exact ⟨v, by simp [alookup, hp, hv]⟩

theorem alookup_ne_none {α : Type} {k : Str} {l : List (Str × α)} {v : α}
    (h : alookup k l = some v) : l ≠ [] := by
  intro he
  subst he
  simp [alookup] at h

/-! ### `extractOne` lemmas -/

theorem extractBest_spec (f : Str → Nat) (l : List Str) (b : Str × Nat) :
    (extractBest f b l = b ∨ ∃ c ∈ l, extractBest f b l = (c, f c)) ∧
      b.2 ≤ (extractBest f b l).2 ∧ ∀ c ∈ l, f c ≤ (extractBest f b l).2 := by
  induction l generalizing b with
  | nil => simp [extractBest]
  | cons c cs ih =>
    simp only [extractBest]
    by_cases h : f c > b.2
    · simp only [if_pos h]
      obtain ⟨h1, h2, h3⟩ := ih (c, f c)
      refine ⟨?_, ?_, ?_⟩
      · rcases h1 with h1 | ⟨d, hd, hde⟩
        · exact Or.inr ⟨c, List.mem_cons_self c cs, h1⟩
        · exact Or.inr ⟨d, List.mem_cons_of_mem c hd, hde⟩
      · exact le_trans (le_of_lt h) h2
      · intro d hd
        rcases List.mem_cons.mp hd with rfl | hd
        · exact h2
        · exact h3 d hd
    · simp only [if_neg h]
      obtain ⟨h1, h2, h3⟩ := ih b
      refine ⟨?_, h2, ?_⟩
      · rcases h1 with h1 | ⟨d, hd, hde⟩
        · exact Or.inl h1
        · exact Or.inr ⟨d, List.mem_cons_of_mem c hd, hde⟩
      · intro d hd
        rcases List.mem_cons.mp hd with rfl | hd
        · exact le_trans (Nat.le_of_not_lt h) h2
        · exact h3 d hd

theorem extractOne_spec {f : Str → Nat} {l : List Str} {b : Str} {s : Nat}
    (h : extractOne f l = some (b, s)) :
    b ∈ l ∧ s = f b ∧ ∀ c ∈ l, f c ≤ s := by
  cases l with
  | nil => simp [extractOne] at h
  | cons c cs =>
    simp only [extractOne, Option.some.injEq] at h
    obtain ⟨h1, h2, h3⟩ := extractBest_spec f cs (c, f c)
    rw [h] at h1 h2 h3
    have hmem : b ∈ c :: cs ∧ s = f b := by
      rcases h1 with h1 | ⟨d, hd, hde⟩
      · rw [Prod.mk.injEq] at h1
        refine ⟨?_, ?_⟩
        · rw [h1.1]
          exact List.mem_cons_self c cs
        · rw [h1.1]
          exact h1.2
      · rw [Prod.mk.injEq] at hde
        refine ⟨?_, ?_⟩
        · rw [hde.1]
          exact List.mem_cons_of_mem c hd
        · rw [hde.1]
          exact hde.2
    refine ⟨hmem.1, hmem.2, ?_⟩
    intro d hd
    rcases List.mem_cons.mp hd with rfl | hd
    · exact h2
    · exact h3 d hd

theorem extractOne_ne_nil {f : Str → Nat} {l : List Str} (h : l ≠ []) :
    ∃ b s, extractOne f l = some (b, s) := by
  cases l with
  | nil => exact absurd rfl h
  | cons c cs => exact ⟨_, _, rfl⟩

/-! ### Dictionary-construction lemmas -/

theorem lastIdFor_nil (k : Str) : lastIdFor [] k = none := rfl

theorem lastIdFor_cons (r : Row) (rest : List Row) (k : Str) :
    lastIdFor (r :: rest) k =
      match lastIdFor rest k with
      | some v => some v
      | none =>
        if normalizeName r.name = k then some (normalizeId r.Id) else none := by
  unfold lastIdFor
  rw [List.reverse_cons, List.find?_append]
  cases hfind : rest.reverse.find? (fun r => normalizeName r.name == k) with
  | some r2 => simp [Option.or]
  | none =>
    simp only [Option.none_or]
    by_cases h : normalizeName r.name = k
    · simp [List.find?, h]
    · have hb : (normalizeName r.name == k) = false := beq_eq_false_iff_ne.mpr h
      simp [List.find?, hb, h]

theorem alookup_buildDict_aux (rows : List Row) (d : List (Str × Str))
    (k : Str) :
    alookup k
        (rows.foldl
          (fun d r => aset (normalizeName r.name) (normalizeId r.Id) d) d) =
      match lastIdFor rows k with
      | some v => some v
      | none => alookup k d := by
  induction rows generalizing d with
  | nil => simp [lastIdFor_nil]
  | cons r rest ih =>
    rw [List.foldl_cons, ih, lastIdFor_cons]
    cases hfind : lastIdFor rest k with
    | some v => simp
    | none =>
      by_cases h : normalizeName r.name = k
      · subst h
        simp [alookup_aset_self]
      · simp [h, alookup_aset_ne _ _ (Ne.symm h)]

/-- The dictionary built by `load_data` maps each normalized name to the
normalized id of the *last* file row carrying that name. -/
theorem alookup_buildDict (rows : List Row) (k : Str) :
    alookup k (buildDict rows) = lastIdFor rows k := by
  rw [buildDict, alookup_buildDict_aux]
  cases lastIdFor rows k with
  | some v => rfl
  | none => rfl

theorem dedupFirst_congr :
    ∀ (l : List Str) (s₁ s₂ : List Str), (∀ x, x ∈ s₁ ↔ x ∈ s₂) →
      dedupFirst s₁ l = dedupFirst s₂ l
  | [], _, _, _ => rfl
  | x :: xs, s₁, s₂, h => by
    simp only [dedupFirst]
    by_cases hx : x ∈ s₁
    · rw [if_pos hx, if_pos ((h x).1 hx), dedupFirst_congr xs s₁ s₂ h]
    · rw [if_neg hx, if_neg (fun c => hx ((h x).2 c)),
        dedupFirst_congr xs (x :: s₁) (x :: s₂) (by intro y; simp [h y])]

theorem keys_buildDict_aux (rows : List Row) (d : List (Str × Str)) :
    (rows.foldl
        (fun d r => aset (normalizeName r.name) (normalizeId r.Id) d) d).map
        Prod.fst =
      d.map Prod.fst ++
        dedupFirst (d.map Prod.fst)
          (rows.map fun r => normalizeName r.name) := by
  induction rows generalizing d with
  | nil => simp [dedupFirst]
  | cons r rest ih =>
    rw [List.foldl_cons, ih, List.map_cons]
    simp only [dedupFirst]
    by_cases h : normalizeName r.name ∈ d.map Prod.fst
    · rw [if_pos h, keys_aset, if_pos h]
    · rw [if_neg h, keys_aset, if_neg h, List.append_assoc]
      congr 1
      rw [List.singleton_append]
      congr 1
      refine dedupFirst_congr _ _ _ ?_
      intro y
      simp [or_comm]

/-- The candidate-name list `list(client_dict.keys())` is the
first-occurrence deduplication of the rows' normalized names. -/
theorem keys_buildDict (rows : List Row) :
    (buildDict rows).map Prod.fst =
      dedupFirst [] (rows.map fun r => normalizeName r.name) := by
  rw [buildDict, keys_buildDict_aux]
  rfl

theorem dedupFirst_sublist :
    ∀ (l : List Str) (seen : List Str), (dedupFirst seen l).Sublist l
  | [], _ => List.Sublist.refl []
  | x :: xs, seen => by
    simp only [dedupFirst]
    by_cases hx : x ∈ seen
    · rw [if_pos hx]
      exact (dedupFirst_sublist xs seen).cons x
    · rw [if_neg hx]
      exact (dedupFirst_sublist xs (x :: seen)).cons₂ x

theorem dedupFirst_nodup :
    ∀ (l : List Str) (seen : List Str),
      (dedupFirst seen l).Nodup ∧ ∀ x ∈ dedupFirst seen l, x ∉ seen
  | [], _ => by simp [dedupFirst]
  | x :: xs, seen => by
    simp only [dedupFirst]
    by_cases hx : x ∈ seen
    · rw [if_pos hx]
      exact dedupFirst_nodup xs seen
    · rw [if_neg hx]
      obtain ⟨h1, h2⟩ := dedupFirst_nodup xs (x :: seen)
      refine ⟨List.nodup_cons.mpr ⟨?_, h1⟩, ?_⟩
      · intro hmem
        exact h2 x hmem (List.mem_cons_self x seen)
      · intro y hy
        rcases List.mem_cons.mp hy with rfl | hy
        · exact hx
        · intro hyseen
          exact h2 y hy (List.mem_cons_of_mem x hyseen)

theorem keys_buildDict_nodup (rows : List Row) :
    ((buildDict rows).map Prod.fst).Nodup := by
  rw [keys_buildDict]
  exact (dedupFirst_nodup _ []).1

/-! ### Structural lemmas about `load_data` and `get_client_id` -/

theorem isEmpty_false_of_ne_nil {dict : List (Str × Str)} (h : dict ≠ []) :
    dict.isEmpty = false := by
  cases dict with
  | nil => exact absurd rfl h
  | cons p ps => rfl

/-- Whenever `load_data` succeeds, the candidate list is exactly the key
list of the dictionary, which has no duplicates. -/
theorem load_data_loaded_names {file : Option Sheet}
    {dict : List (Str × Str)} {names : List Str}
    (h : load_data file = .loaded dict names) :
    names = dict.map Prod.fst ∧ names.Nodup := by
  cases file with
  | none => simp [load_data] at h
  | some sheet =>
    by_cases hc : str "Id" ∈ sheet.columns.map pyStrip ∧
        str "name" ∈ sheet.columns.map pyStrip
    · simp only [load_data, if_pos hc] at h
      obtain ⟨hd, hn⟩ := LoadOutcome.loaded.inj h
      subst hd
      subst hn
      exact ⟨rfl, keys_buildDict_nodup sheet.rows⟩
    · simp only [load_data, if_neg hc] at h
      exact absurd h (by simp)

/-- If the resolver answers with a fuzzy match, the matched name was a
member of the candidate list of the loaded dataset. -/
theorem get_client_id_fuzzy_inv {score : Str → Str → Nat} {st : ServerState}
    {q : Str} {id nm : Str} {s : Nat}
    (h : (get_client_id score st q).1 = .fuzzy id nm s) :
    ∃ dict names, st.data = some (dict, names) ∧ nm ∈ names := by
  rcases st with ⟨fs, data⟩
  rcases data with _ | ⟨dict, names⟩
  · simp [get_client_id] at h
  · refine ⟨dict, names, rfl, ?_⟩
    cases hempty : dict.isEmpty with
    | true => simp [get_client_id, hempty] at h
    | false =>
      by_cases hq : normalizeName q = []
      · simp [get_client_id, hempty, hq] at h
      · cases hex : alookup (normalizeName q) dict with
        | some i => simp [get_client_id, hempty, hq, hex] at h
        | none =>
          cases hext : extractOne (score (normalizeName q)) names with
          | none => simp [get_client_id, hempty, hq, hex, hext] at h
          | some bs =>
            obtain ⟨best, sc⟩ := bs
            by_cases h80 : sc ≥ 80
            · cases hid2 : alookup best dict with
              | some i =>
                simp only [get_client_id, hempty, hq, hex, hext, h80,
                  hid2, if_true, if_false, Bool.false_eq_true, if_neg,
                  ite_false, ite_true] at h
                have h2 : best = nm := by
                  simp [hempty, hq, if_neg hq, h80, hid2] at h
                  exact h.2.1
                rw [← h2]
                exact (extractOne_spec hext).1
              | none =>
                simp [get_client_id, hempty, hq, hex, hext, h80, hid2] at h
            · simp [get_client_id, hempty, hq, hex, hext, h80] at h

/-- Claim C8: `get_client_id` has no side effects — the server state after
any request (match, not-found, or error) is exactly the state before it. -/
theorem get_client_id_pure (score : Str → Str → Nat) (st : ServerState)
    (q : Str) : (get_client_id score st q).2 = st := by
  rcases st with ⟨fs, data⟩
  rcases data with _ | ⟨dict, names⟩
  · rfl
  · cases hempty : dict.isEmpty with
    | true => simp [get_client_id, hempty]
    | false =>
      by_cases hq : normalizeName q = []
      · simp [get_client_id, hempty, hq]
      · cases hex : alookup (normalizeName q) dict with
        | some i => simp [get_client_id, hempty, hq, hex]
        | none =>
          cases hext : extractOne (score (normalizeName q)) names with
          | none => simp [get_client_id, hempty, hq, hex, hext]
          | some bs =>
            obtain ⟨best, sc⟩ := bs
            by_cases h80 : sc ≥ 80
            · cases hid2 : alookup best dict with
              | some i => simp [get_client_id, hempty, hq, hex, hext, h80, hid2]
              | none => simp [get_client_id, hempty, hq, hex, hext, h80, hid2]
            · simp [get_client_id, hempty, hq, hex, hext, h80]

/-- Claim C3: with no dataset loaded, every query — including empty and
blank ones — is rejected with the `NoDataError` HTTP 400 response; the
check happens before normalization and the empty-query check, so no other
outcome is possible for any query string. -/
theorem no_data_rejected_first (score : Str → Str → Nat)
    (fs : List (Str × Sheet)) (q : Str) :
    (get_client_id score ⟨fs, none⟩ q).1 = .noDataError := rfl

/-- Claim C1 (counterexample): the claim fails when the stored name
normalizes to the empty string.  Load a dataset whose single row has name
cell `\x7b\x7d` (normalized name: empty); the empty query's normalized
form equals that stored name, yet `get_client_id` answers
`InvalidQueryError` instead of the claimed `Exact` match, because the
empty-normalized-query check runs before the exact-match lookup. -/
theorem exact_match_shadowed_by_empty_query_check :
    load_data (some ⟨[str "Id", str "name"], [⟨str "1", ['{', '}']⟩]⟩) =
      .loaded [([], str "1")] [[]] ∧
    normalizeName [] = [] ∧
    alookup (normalizeName []) [([], str "1")] = some (str "1") ∧
    (get_client_id (fun _ _ => 0)
        ⟨[(dataFileName, ⟨[str "Id", str "name"], [⟨str "1", ['{', '}']⟩]⟩)],
          some ([([], str "1")], [[]])⟩ []).1 = .invalidQueryError := by
  decide

/-- Claim C1 (amended): for every loaded dataset and every query whose
normalized form is non-empty and equals a stored name, `get_client_id`
returns the `Exact` match carrying that name's id — for any fuzzy scorer
and any candidate list, so the fuzzy step is never attempted and cannot
override the exact match. -/
theorem exact_match_wins (score : Str → Str → Nat) (fs : List (Str × Sheet))
    (dict : List (Str × Str)) (names : List Str) (q id : Str)
    (hq : normalizeName q ≠ [])
    (hlook : alookup (normalizeName q) dict = some id) :
    (get_client_id score ⟨fs, some (dict, names)⟩ q).1 =
      .exact id (normalizeName q) := by
  have hempty : dict.isEmpty = false :=
    isEmpty_false_of_ne_nil (alookup_ne_none hlook)
  simp [get_client_id, hempty, hq, hlook]

/-- Witness for `exact_match_wins`: a two-entry dataset, a query that
normalizes onto the first stored name, and a scorer that would rate the
other entry higher — the exact match still wins. -/
theorem exact_match_wins_witness :
    (get_client_id (fun _ c => if c = str "Beta Inc" then 100 else 0)
        ⟨[], some ([(str "Acme Corp", str "A1"), (str "Beta Inc", str "B1")],
          [str "Acme Corp", str "Beta Inc"])⟩
        (str " Acme Corp ")).1 = .exact (str "A1") (str "Acme Corp") := by
  have h := exact_match_wins (fun _ c => if c = str "Beta Inc" then 100 else 0)
      [] [(str "Acme Corp", str "A1"), (str "Beta Inc", str "B1")]
      [str "Acme Corp", str "Beta Inc"] (str " Acme Corp ") (str "A1")
      (by decide) (by decide)
  have hn : normalizeName (str " Acme Corp ") = str "Acme Corp" := by decide
  rw [hn] at h
  exact h

/-- Claim C4: on a non-empty dataset, a query whose normalization is empty
is rejected with `InvalidQueryError` — for every dictionary, candidate
list and scorer, so neither the exact nor the fuzzy lookup can run. -/
theorem empty_query_rejected (score : Str → Str → Nat)
    (fs : List (Str × Sheet)) (dict : List (Str × Str)) (names : List Str)
    (q : Str) (hne : dict ≠ []) (hq : normalizeName q = []) :
    (get_client_id score ⟨fs, some (dict, names)⟩ q).1 =
      .invalidQueryError := by
  have hempty : dict.isEmpty = false := isEmpty_false_of_ne_nil hne
  simp [get_client_id, hempty, hq]

/-- Witness for `empty_query_rejected`: the blank query `"   "` and the
empty query on a one-entry dataset. -/
theorem empty_query_rejected_witness :
    (get_client_id (fun _ _ => 0)
        ⟨[], some ([(str "Acme", str "1")], [str "Acme"])⟩ (str "   ")).1 =
      .invalidQueryError ∧
    (get_client_id (fun _ _ => 0)
        ⟨[], some ([(str "Acme", str "1")], [str "Acme"])⟩ (str "")).1 =
      .invalidQueryError :=
  ⟨empty_query_rejected (fun _ _ => 0) [] [(str "Acme", str "1")]
      [str "Acme"] (str "   ") (by decide) (by decide),
    empty_query_rejected (fun _ _ => 0) [] [(str "Acme", str "1")]
      [str "Acme"] (str "") (by decide) (by decide)⟩

/-- Claim C5: a missing data file yields the no-data state (no error),
while an existing file whose trimmed columns do not include both `Id` and
`name` fails with the format error naming the expected and the found
column sets. -/
theorem loader_column_validation :
    load_data none = .noData ∧
    ∀ sheet : Sheet,
      ¬(str "Id" ∈ sheet.columns.map pyStrip ∧
          str "name" ∈ sheet.columns.map pyStrip) →
        load_data (some sheet) =
          .formatError [str "Id", str "name"] (sheet.columns.map pyStrip) := by
  refine ⟨rfl, ?_⟩
  intro sheet h
  simp only [load_data, if_neg h]

/-- Witness for `loader_column_validation`: a sheet whose second column
trims to `Name` — case-sensitively different from the required `name` —
is rejected, and the error carries both the expected and the found
(trimmed) column sets. -/
theorem loader_column_validation_witness :
    load_data none = .noData ∧
    load_data (some ⟨[str "Id", str " Name "], []⟩) =
      .formatError [str "Id", str "name"] [str "Id", str "Name"] := by
  refine ⟨loader_column_validation.1, ?_⟩
  have h := loader_column_validation.2 ⟨[str "Id", str " Name "], []⟩
      (by decide)
  have hc : ([str "Id", str " Name "] : List Str).map pyStrip =
      [str "Id", str "Name"] := by decide
  rw [hc] at h
  exact h

/-- Claim C2: on a non-empty dataset (with the candidate list being the
dictionary's keys, as the loader always produces) and a normalized
non-empty query with no exact match, the resolver scores every candidate
in [0,100], picks a best-scoring candidate, and returns the `Fuzzy` match
with that candidate's name, its mapped id and the score when the score is
at least 80, and `NotFound` (HTTP 404) otherwise. -/
theorem fuzzy_threshold_decision (score : Str → Str → Nat)
    (fs : List (Str × Sheet)) (dict : List (Str × Str)) (names : List Str)
    (q : Str)
    (hbound : ∀ a b, score a b ≤ 100)
    (hinv : names = dict.map Prod.fst)
    (hne : dict ≠ [])
    (hq : normalizeName q ≠ [])
    (hex : alookup (normalizeName q) dict = none) :
    ∃ best s,
      extractOne (score (normalizeName q)) names = some (best, s) ∧
      best ∈ names ∧
      s = score (normalizeName q) best ∧
      s ≤ 100 ∧
      (∀ c ∈ names, score (normalizeName q) c ≤ s) ∧
      (80 ≤ s → ∃ id, alookup best dict = some id ∧
        (get_client_id score ⟨fs, some (dict, names)⟩ q).1 =
          .fuzzy id best s) ∧
      (s < 80 →
        (get_client_id score ⟨fs, some (dict, names)⟩ q).1 = .notFound) := by
  have hempty : dict.isEmpty = false := isEmpty_false_of_ne_nil hne
  have hnames : names ≠ [] := by
    rw [hinv]
    intro hmap
    cases dict with
    | nil => exact hne rfl
    | cons p ps => simp at hmap
  obtain ⟨best, s, hext⟩ :=
    extractOne_ne_nil (f := score (normalizeName q)) hnames
  obtain ⟨hmem, hs, hmax⟩ := extractOne_spec hext
  refine ⟨best, s, hext, hmem, hs, ?_, hmax, ?_, ?_⟩
  · rw [hs]
    exact hbound _ _
  · intro h80
    obtain ⟨id, hid⟩ := alookup_of_mem_keys (hinv ▸ hmem)
    refine ⟨id, hid, ?_⟩
    simp [get_client_id, hempty, hq, hex, hext, h80, hid]
  · intro hlt
    have h80 : ¬ s ≥ 80 := by omega
    simp [get_client_id, hempty, hq, hex, hext, h80]

/-- Witness for `fuzzy_threshold_decision`: a constant-85 scorer on a
two-entry dataset and a query with no exact match; the first candidate
wins the tie and is returned as a fuzzy match with score 85. -/
theorem fuzzy_threshold_decision_witness :
    ∃ best s,
      extractOne ((fun _ _ => 85) (normalizeName (str "Zeta LLC")))
          [str "Acme", str "Beta"] = some (best, s) ∧
      best ∈ [str "Acme", str "Beta"] ∧
      s = (fun _ _ => 85) (normalizeName (str "Zeta LLC")) best ∧
      s ≤ 100 ∧
      (∀ c ∈ [str "Acme", str "Beta"],
        (fun _ _ => 85) (normalizeName (str "Zeta LLC")) c ≤ s) ∧
      (80 ≤ s → ∃ id,
        alookup best [(str "Acme", str "1"), (str "Beta", str "2")] =
          some id ∧
        (get_client_id (fun _ _ => 85)
            ⟨[], some ([(str "Acme", str "1"), (str "Beta", str "2")],
              [str "Acme", str "Beta"])⟩ (str "Zeta LLC")).1 =
          .fuzzy id best s) ∧
      (s < 80 →
        (get_client_id (fun _ _ => 85)
            ⟨[], some ([(str "Acme", str "1"), (str "Beta", str "2")],
              [str "Acme", str "Beta"])⟩ (str "Zeta LLC")).1 = .notFound) :=
  fuzzy_threshold_decision (fun _ _ => 85) []
    [(str "Acme", str "1"), (str "Beta", str "2")] [str "Acme", str "Beta"]
    (str "Zeta LLC") (fun _ _ => by simp) (by decide) (by decide)
    (by decide) (by decide)

/-- Claim C6: on a sheet with the required columns, the loader returns a
dictionary in which each normalized name (name cell trimmed and stripped
of braces) maps to the normalized id (id cell trimmed) of the *last* row
bearing that name, together with the candidate list: the dictionary's
keys, i.e. the rows' normalized names with later duplicates dropped,
which therefore follow file row order (a sublist of the row-order name
list). -/
theorem loader_mapping_and_candidates (sheet : Sheet)
    (hid : str "Id" ∈ sheet.columns.map pyStrip)
    (hname : str "name" ∈ sheet.columns.map pyStrip) :
    ∃ dict names, load_data (some sheet) = .loaded dict names ∧
      (∀ k, alookup k dict = lastIdFor sheet.rows k) ∧
      names = dedupFirst [] (sheet.rows.map fun r => normalizeName r.name) ∧
      names.Sublist (sheet.rows.map fun r => normalizeName r.name) := by
  refine ⟨buildDict sheet.rows, (buildDict sheet.rows).map Prod.fst,
    ?_, ?_, ?_, ?_⟩
  · simp only [load_data, if_pos (And.intro hid hname)]
  · intro k
    exact alookup_buildDict sheet.rows k
  · exact keys_buildDict sheet.rows
  · rw [keys_buildDict]
    exact dedupFirst_sublist _ []

/-- Witness for `loader_mapping_and_candidates`: a sheet with a duplicate
normalized name (rows Acme/1, Beta/2, Acme/3). -/
theorem loader_mapping_and_candidates_witness :
    ∃ dict names,
      load_data (some ⟨[str "Id", str "name"],
          [⟨str "1", str "Acme"⟩, ⟨str "2", str "Beta"⟩,
            ⟨str "3", str " Acme "⟩]⟩) = .loaded dict names ∧
      (∀ k, alookup k dict =
        lastIdFor [⟨str "1", str "Acme"⟩, ⟨str "2", str "Beta"⟩,
          ⟨str "3", str " Acme "⟩] k) ∧
      names = dedupFirst []
        (([⟨str "1", str "Acme"⟩, ⟨str "2", str "Beta"⟩,
          ⟨str "3", str " Acme "⟩] : List Row).map
            fun r => normalizeName r.name) ∧
      names.Sublist (([⟨str "1", str "Acme"⟩, ⟨str "2", str "Beta"⟩,
        ⟨str "3", str " Acme "⟩] : List Row).map
          fun r => normalizeName r.name) :=
  loader_mapping_and_candidates
    ⟨[str "Id", str "name"],
      [⟨str "1", str "Acme"⟩, ⟨str "2", str "Beta"⟩,
        ⟨str "3", str " Acme "⟩]⟩ (by decide) (by decide)

/-- A one-row sheet (Alice ↦ 1) used to exercise the upload endpoint. -/
def sheetAlice : Sheet :=
  ⟨[str "Id", str "name"], [⟨str "1", str "Alice"⟩]⟩

/-- A one-row sheet (Bob ↦ 2) used to exercise the upload endpoint. -/
def sheetBob : Sheet :=
  ⟨[str "Id", str "name"], [⟨str "2", str "Bob"⟩]⟩

/-- A server that has loaded `sheetAlice` from the fixed data file. -/
def stAlice : ServerState :=
  ⟨[(dataFileName, sheetAlice)],
    some ([(str "Alice", str "1")], [str "Alice"])⟩

/-- Claim C7 (counterexample): `upload_file` does *not* save to a fixed
filename — it saves under the uploaded file's own name
(`os.path.join(UPLOAD_DIR, file.filename)`), and the loader re-reads the
fixed `meldepCustomers.xlsx`.  Uploading `clients.xlsx` (parsing to the
Bob dataset) onto a server whose data file holds the Alice dataset
succeeds, saves a second file instead of overwriting, and leaves the
in-memory dataset at Alice — not the uploaded contents. -/
theorem upload_not_fixed_filename :
    (upload_file stAlice (str "clients.xlsx") sheetBob).2 = true ∧
    alookup (str "clients.xlsx")
        (upload_file stAlice (str "clients.xlsx") sheetBob).1.fs =
      some sheetBob ∧
    alookup dataFileName
        (upload_file stAlice (str "clients.xlsx") sheetBob).1.fs =
      some sheetAlice ∧
    (upload_file stAlice (str "clients.xlsx") sheetBob).1.data =
      some ([(str "Alice", str "1")], [str "Alice"]) ∧
    load_data (some sheetBob) =
      .loaded [(str "Bob", str "2")] [str "Bob"] ∧
    ([(str "Alice", str "1")] : List (Str × Str)) ≠
      [(str "Bob", str "2")] := by
  decide

/-- Claim C7 (amended): `POST /upload` saves the uploaded bytes in the
upload directory under the uploaded file's *own* filename, overwriting
only a prior file of that same name and leaving other files untouched;
the Data Loader then re-reads the fixed `meldepCustomers.xlsx`, so the
in-memory dataset is fully replaced by the uploaded contents exactly when
the uploaded filename is `meldepCustomers.xlsx`. -/
theorem upload_saves_under_uploaded_name (st : ServerState) (fname : Str)
    (sheet : Sheet) (dict : List (Str × Str)) (names : List Str) :
    alookup fname (upload_file st fname sheet).1.fs = some sheet ∧
    (∀ k, k ≠ fname →
      alookup k (upload_file st fname sheet).1.fs = alookup k st.fs) ∧
    (fname = dataFileName →
      load_data (some sheet) = .loaded dict names →
      (upload_file st fname sheet).1.data = some (dict, names)) := by
  have hfs : (upload_file st fname sheet).1.fs = aset fname sheet st.fs := by
    simp only [upload_file]
    cases load_data (alookup dataFileName (aset fname sheet st.fs)) <;> rfl
  refine ⟨?_, ?_, ?_⟩
  · rw [hfs]
    exact alookup_aset_self fname sheet st.fs
  · intro k hk
    rw [hfs]
    exact alookup_aset_ne sheet st.fs hk
  · intro hf hload
    subst hf
    simp only [upload_file, alookup_aset_self, hload]

/-- Witness for `upload_saves_under_uploaded_name`: uploading under the
fixed name `meldepCustomers.xlsx` does replace the dataset. -/
theorem upload_saves_under_uploaded_name_witness :
    alookup dataFileName
        (upload_file ⟨[], none⟩ dataFileName sheetBob).1.fs =
      some sheetBob ∧
    (upload_file ⟨[], none⟩ dataFileName sheetBob).1.data =
      some ([(str "Bob", str "2")], [str "Bob"]) := by
  have h := upload_saves_under_uploaded_name ⟨[], none⟩ dataFileName
      sheetBob [(str "Bob", str "2")] [str "Bob"]
  exact ⟨h.1, h.2.2 rfl (by decide)⟩

/-- Claim C9: a successfully loaded dataset with zero records gives the
empty dictionary, and every query on it is rejected with the `NoDataError`
HTTP 400 response — exactly the answer given when no dataset is loaded at
all, so the endpoint cannot distinguish the two states. -/
theorem empty_dataset_indistinguishable (score : Str → Str → Nat)
    (fs : List (Str × Sheet)) (names : List Str) (q : Str) (sheet : Sheet)
    (hid : str "Id" ∈ sheet.columns.map pyStrip)
    (hname : str "name" ∈ sheet.columns.map pyStrip)
    (hrows : sheet.rows = []) :
    load_data (some sheet) = .loaded [] [] ∧
    (get_client_id score ⟨fs, some ([], names)⟩ q).1 = .noDataError ∧
    (get_client_id score ⟨fs, none⟩ q).1 = .noDataError := by
  refine ⟨?_, rfl, rfl⟩
  simp only [load_data, if_pos (And.intro hid hname), hrows, buildDict,
    List.foldl_nil, List.map_nil]

/-- Witness for `empty_dataset_indistinguishable`: a sheet with the
required columns and no rows. -/
theorem empty_dataset_indistinguishable_witness :
    load_data (some ⟨[str "Id", str "name"], []⟩) = .loaded [] [] ∧
    (get_client_id (fun _ _ => 0) ⟨[], some ([], [])⟩ (str "Alice")).1 =
      .noDataError ∧
    (get_client_id (fun _ _ => 0) ⟨[], none⟩ (str "Alice")).1 =
      .noDataError :=
  empty_dataset_indistinguishable (fun _ _ => 0) [] [] (str "Alice")
    ⟨[str "Id", str "name"], []⟩ (by decide) (by decide) rfl

/-- Claim C10: (1) whenever `load_data` yields a dataset — at startup or
otherwise — the candidate list is exactly the dictionary's key list, in
order and duplicate-free; (2) `upload_file` preserves this invariant; and
(3) under the invariant, the name in every fuzzy answer is a key of the
dictionary. -/
theorem candidates_are_keys_invariant :
    (∀ (file : Option Sheet) (dict : List (Str × Str)) (names : List Str),
      load_data file = .loaded dict names →
        names = dict.map Prod.fst ∧ names.Nodup) ∧
    (∀ (st : ServerState) (fname : Str) (sheet : Sheet)
        (dict : List (Str × Str)) (names : List Str),
      (∀ d n, st.data = some (d, n) → n = d.map Prod.fst ∧ n.Nodup) →
      (upload_file st fname sheet).1.data = some (dict, names) →
        names = dict.map Prod.fst ∧ names.Nodup) ∧
    (∀ (score : Str → Str → Nat) (st : ServerState) (q : Str)
        (dict : List (Str × Str)) (names : List Str) (id nm : Str)
        (s : Nat),
      st.data = some (dict, names) →
      names = dict.map Prod.fst →
      (get_client_id score st q).1 = .fuzzy id nm s →
        nm ∈ dict.map Prod.fst) := by
  refine ⟨?_, ?_, ?_⟩
  · intro file dict names h
    exact load_data_loaded_names h
  · intro st fname sheet dict names hstinv h
    simp only [upload_file] at h
    cases hload :
        load_data (alookup dataFileName (aset fname sheet st.fs)) with
    | noData =>
      rw [hload] at h
      simp at h
    | formatError e f =>
      rw [hload] at h
      exact hstinv dict names h
    | loaded d n =>
      rw [hload] at h
      simp only [Option.some.injEq, Prod.mk.injEq] at h
      obtain ⟨hd, hn⟩ := h
      subst hd
      subst hn
      exact load_data_loaded_names hload
  · intro score st q dict names id nm s hdata hinv h
    obtain ⟨dict2, names2, hdata2, hmem⟩ := get_client_id_fuzzy_inv h
    rw [hdata] at hdata2
    obtain ⟨hd, hn⟩ := Prod.mk.injEq .. ▸ Option.some.inj hdata2
    rw [← hinv, hn]
    exact hmem

/-- Witness for `candidates_are_keys_invariant`: its loader part applied
to a concrete two-row file, and its fuzzy part applied to a concrete
fuzzy answer. -/
theorem candidates_are_keys_invariant_witness :
    ([str "Acme", str "Beta"] =
        ([(str "Acme", str "1"), (str "Beta", str "2")] :
          List (Str × Str)).map Prod.fst ∧
      ([str "Acme", str "Beta"] : List Str).Nodup) ∧
    str "Acme" ∈ ([(str "Acme", str "1"), (str "Beta", str "2")] :
      List (Str × Str)).map Prod.fst :=
  ⟨candidates_are_keys_invariant.1
      (some ⟨[str "Id", str "name"],
        [⟨str "1", str "Acme"⟩, ⟨str "2", str "Beta"⟩]⟩)
      [(str "Acme", str "1"), (str "Beta", str "2")]
      [str "Acme", str "Beta"] (by decide),
    candidates_are_keys_invariant.2.2 (fun _ _ => 85)
      ⟨[], some ([(str "Acme", str "1"), (str "Beta", str "2")],
        [str "Acme", str "Beta"])⟩
      (str "Zeta") [(str "Acme", str "1"), (str "Beta", str "2")]
      [str "Acme", str "Beta"] (str "1") (str "Acme") 85 rfl (by decide)
      (by decide)⟩
